import Mathlib

/-!
Shallow embedding of quicklog (src/quicklog.h), a low latency in-process
logging facade, and proofs about its core operations.

Modelling conventions:
* uint8_t counters are Nat values kept reduced modulo 256 at every write.
* The byte arena of an EntryBuffer is a map from byte offsets to the entry
  object, if any, whose in-arena representation was placed at that offset.
* The error hook QUICKLOG_ERROR has two documented configurations.  The
  operations below follow the control flow of the code with a hook that
  records its message and returns: each operation yields the list of hook
  messages next to the state the code leaves behind when the hook returns.
  Semaphore.getFatal is the take operation under the default hook, which
  terminates the process.
* Array reads go through getElem? so that an out of bounds read, which is
  undefined behaviour in the C++, surfaces as none and makes the whole
  operation return none.
-/

namespace Quicklog

/-- Alignment of std::max_align_t, the value of QUICKLOG_ALIGN on the LP64
targets used by the examples of the repository. -/
def QUICKLOG_ALIGN : Nat := 16

/-- Round sz up to the size required for alignment, as detail::alignedSize
does: if sz is not a multiple of QUICKLOG_ALIGN, add the distance to the
next multiple. -/
def alignedSize (sz : Nat) : Nat :=
  if sz % QUICKLOG_ALIGN ≠ 0 then sz + (QUICKLOG_ALIGN - sz % QUICKLOG_ALIGN) else sz

/-- A stored record, detail::LogEntry.  The field size models the C++ field
LogEntryBase::size, which the value constructor sets to sizeof of the whole
entry object, its raw, not yet aligned, representation size; for example
LogEntry of a single int has sizeof 24 under the common LP64 ABI (vtable
pointer 8, size_t 8, int 4, padded to the 8 byte object alignment).  The
field tag stands for the captured argument tuple together with its reprint
behaviour, which the claims treat only up to identity. -/
structure LogEntry where
  size : Nat
  tag : Nat
deriving DecidableEq

/-- One capture arena, detail::EntryBuffer.  m_buffer maps each byte offset
to the entry object placed there by pushElem, if any. -/
structure EntryBuffer where
  m_count : Nat
  m_pos : Nat
  m_buffer : Nat → Option LogEntry

/-- A freshly constructed arena: counters zero, no entry placed anywhere. -/
def emptyBuffer : EntryBuffer :=
  { m_count := 0, m_pos := 0, m_buffer := fun _ => none }

/-- EntryBuffer::pushElem for an arena of capacity B.  Computes the aligned
size of the element, fails without mutation if it does not fit, otherwise
places the element at offset m_pos, advances m_pos by the aligned size and
increments m_count. -/
def pushElem (B : Nat) (buf : EntryBuffer) (elem : LogEntry) : Bool × EntryBuffer :=
  let align_sz := alignedSize elem.size
  if align_sz + buf.m_pos > B then
    (false, buf)
  else
    (true,
      { m_count := buf.m_count + 1,
        m_pos := buf.m_pos + align_sz,
        m_buffer := fun o => if o = buf.m_pos then some elem else buf.m_buffer o })

/-- EntryBuffer::clear resets the counters only; the bytes are left as they
are. -/
def EntryBuffer.clear (buf : EntryBuffer) : EntryBuffer :=
  { buf with m_count := 0, m_pos := 0 }

/-- EntryBuffer::isEmpty tests m_pos == 0. -/
def EntryBuffer.isEmpty (buf : EntryBuffer) : Bool :=
  buf.m_pos == 0

/-- The read side walk of EntryBuffer::dump: starting at a given offset,
read the entry header stored at the current offset and advance by
alignedSize of the size that header declares, n times.  Returns the offset
and entry pairs in visit order.  Reading an offset where no entry object
starts is undefined behaviour in the C++; the model cuts the walk short
there. -/
def dumpWalk (mem : Nat → Option LogEntry) : Nat → Nat → List (Nat × LogEntry)
  | 0, _ => []
  | n + 1, pos =>
    match mem pos with
    | none => []
    | some e => (pos, e) :: dumpWalk mem n (pos + alignedSize e.size)

/-- EntryBuffer::dump: reprint the m_count stored entries walking from
offset 0, then clear.  The first component is the print trace in call
order. -/
def EntryBuffer.dump (buf : EntryBuffer) : List LogEntry × EntryBuffer :=
  ((dumpWalk buf.m_buffer buf.m_count 0).map Prod.snd, buf.clear)

/-- Push a list of entries left to right; none as soon as one push fails. -/
def pushAll (B : Nat) (buf : EntryBuffer) : List LogEntry → Option EntryBuffer
  | [] => some buf
  | e :: es =>
    if (pushElem B buf e).1 then pushAll B (pushElem B buf e).2 es else none

/-- Offsets at which pushElem lays out the given entries one after the
other, starting from the given position: each entry advances the position
by its aligned size. -/
def layout (pos : Nat) : List LogEntry → List (Nat × LogEntry)
  | [] => []
  | e :: es => (pos, e) :: layout (pos + alignedSize e.size) es

/-- The special purpose SPSC semaphore, detail::semaphore.  Both counters
are volatile uint8_t, modelled as Nat reduced modulo 256. -/
structure Semaphore where
  numPuts : Nat
  numGets : Nat
deriving DecidableEq

/-- semaphore::put increments numPuts (uint8_t wraparound). -/
def Semaphore.put (s : Semaphore) : Semaphore :=
  { s with numPuts := (s.numPuts + 1) % 256 }

/-- semaphore::peek returns numPuts - numGets as a uint8_t. -/
def Semaphore.peek (s : Semaphore) : Nat :=
  (s.numPuts + 256 - s.numGets) % 256

/-- semaphore::get under a hook that returns: the flag records whether the
underflow hook fired, and numGets is incremented afterwards either way,
following the code. -/
def Semaphore.get (s : Semaphore) : Bool × Semaphore :=
  (s.numPuts == s.numGets, { s with numGets := (s.numGets + 1) % 256 })

/-- semaphore::get under the default hook, which terminates the process: an
underflow take aborts before numGets is touched. -/
def Semaphore.getFatal (s : Semaphore) : Option Semaphore :=
  if s.numPuts = s.numGets then none
  else some { s with numGets := (s.numGets + 1) % 256 }

/-- Producer and consumer operations on one semaphore. -/
inductive SemOp where
  | putOp : SemOp
  | takeOp : SemOp
deriving DecidableEq

/-- Run a sequence of semaphore operations under the default error hook:
an underflow take terminates the run. -/
def semRun (s : Semaphore) : List SemOp → Option Semaphore
  | [] => some s
  | SemOp.putOp :: ops => semRun s.put ops
  | SemOp.takeOp :: ops =>
    match s.getFatal with
    | none => none
    | some s1 => semRun s1 ops

/-- Message of the error hook call in LocalLogger::log when the logger is
full. -/
def msgLoggerFull : String := "LocalLogger full"

/-- Message of the error hook call in LocalLogger::log when an entry does
not fit in an empty arena. -/
def msgEntryTooLarge : String := "Log entries bigger than buffer size"

/-- Message of the error hook call in LocalLogger::nextIndex when the
logger has no server back reference. -/
def msgNotRegistered : String := "LocalLogger not registered to LogServer"

/-- Message of the error hook call in LocalLogger::nextIndex when all
arenas are already full. -/
def msgNextIndexFull : String := "localLogger full"

/-- Message of the error hook call in semaphore::get on underflow. -/
def msgSemUnderflow : String := "get called on non-gettable semaphore"

/-- Message of the error hook call in LogServer::addLogger when the
registry is full. -/
def msgRegistryFull : String := "Attempt to add more than maxLoggers loggers to LogServer"

/-- Per producer logger, LocalLogger, with numBuffers = buffers.length.
server models whether the LogServerBase pointer is non null. -/
structure LocalLogger where
  buffers : List EntryBuffer
  writeIndex : Nat
  readIndex : Nat
  buffersFull : Semaphore
  server : Bool

/-- A freshly constructed LocalLogger with N arenas: all members value
constructed, server pointer null. -/
def initLogger (N : Nat) : LocalLogger :=
  { buffers := List.replicate N emptyBuffer,
    writeIndex := 0,
    readIndex := 0,
    buffersFull := { numPuts := 0, numGets := 0 },
    server := false }

/-- Effect of LogServer::addLogger on the logger itself: the server back
reference is set. -/
def registerLogger (L : LocalLogger) : LocalLogger :=
  { L with server := true }

/-- LocalLogger::full tests buffersFull.peek() == numBuffers. -/
def LocalLogger.full (L : LocalLogger) : Bool :=
  L.buffersFull.peek == L.buffers.length

/-- LocalLogger::nextIndex: if not full, advance writeIndex modulo
numBuffers, put the semaphore, and notify the server, with an error hook
call if the logger was never registered; if full, an error hook call and
no state change. -/
def LocalLogger.nextIndex (L : LocalLogger) : List String × LocalLogger :=
  if !L.full then
    let L1 := { L with writeIndex := (L.writeIndex + 1) % L.buffers.length,
                       buffersFull := L.buffersFull.put }
    if L1.server then ([], L1) else ([msgNotRegistered], L1)
  else
    ([msgNextIndexFull], L)

/-- LocalLogger::log: if full, the error hook fires and the event is
dropped; otherwise push onto buffers[writeIndex]; on failure call
nextIndex and retry exactly once; if the retry also fails the entry is
bigger than an arena and the error hook fires. -/
def LocalLogger.log (B : Nat) (L : LocalLogger) (e : LogEntry) :
    Option (List String × LocalLogger) :=
  if L.full then some ([msgLoggerFull], L)
  else
    match L.buffers[L.writeIndex]? with
    | none => none
    | some buf =>
      let r1 := pushElem B buf e
      if r1.1 then
        some ([], { L with buffers := L.buffers.set L.writeIndex r1.2 })
      else
        let n := L.nextIndex
        match n.2.buffers[n.2.writeIndex]? with
        | none => none
        | some buf2 =>
          let r2 := pushElem B buf2 e
          if r2.1 then
            some (n.1, { n.2 with buffers := n.2.buffers.set n.2.writeIndex r2.2 })
          else
            some (n.1 ++ [msgEntryTooLarge], n.2)

/-- LocalLogger::flush: advance to the next arena if the current one is
non empty. -/
def LocalLogger.flush (L : LocalLogger) : Option (List String × LocalLogger) :=
  match L.buffers[L.writeIndex]? with
  | none => none
  | some buf =>
    if !buf.isEmpty then some L.nextIndex else some ([], L)

/-- LocalLogger::dump, the consumer side drain of one arena.  Note that the
C++ advances readIndex with a plain uint8_t increment and no reduction
modulo numBuffers, so the arena index it reads is readIndex as is.  The
middle component is the print trace of the drained arena. -/
def LocalLogger.dump (L : LocalLogger) : Option (Bool × List LogEntry × LocalLogger) :=
  if L.buffersFull.peek ≠ 0 then
    match L.buffers[L.readIndex]? with
    | none => none
    | some buf =>
      let d := buf.dump
      some (true, d.1,
        { L with buffers := L.buffers.set L.readIndex d.2,
                 readIndex := (L.readIndex + 1) % 256,
                 buffersFull := (L.buffersFull.get).2 })
  else
    some (false, [], L)

/-- Operations on one LocalLogger: a producer log, a producer flush, or a
consumer drain of one arena. -/
inductive Op where
  | logOp : LogEntry → Op
  | flushOp : Op
  | drainOp : Op
deriving DecidableEq

/-- One operation as a state step.  Yields the hook messages, the entries
printed by this step, and the next state; none on undefined behaviour. -/
def step (B : Nat) (op : Op) (L : LocalLogger) :
    Option (List String × List LogEntry × LocalLogger) :=
  match op with
  | Op.logOp e => (L.log B e).map (fun r => (r.1, [], r.2))
  | Op.flushOp => L.flush.map (fun r => (r.1, [], r.2))
  | Op.drainOp => L.dump.map (fun r => ([], r.2.1, r.2.2))

/-- Run a sequence of operations, concatenating hook messages and print
traces; none as soon as one step hits undefined behaviour. -/
def runOps (B : Nat) : List Op → LocalLogger → Option (List String × List LogEntry × LocalLogger)
  | [], L => some ([], [], L)
  | op :: ops, L =>
    (step B op L).bind fun r =>
      (runOps B ops r.2.2).bind fun r2 =>
        some (r.1 ++ r2.1, r.2.1 ++ r2.2.1, r2.2.2)

/-- Single producer end to end scenario: starting from a freshly registered
logger with N arenas of capacity B, log the given entries, flush once, then
drain every full arena.  Returns the full print trace provided no error
hook fired and no undefined behaviour occurred. -/
def fullScenario (B N : Nat) (es : List LogEntry) : Option (List LogEntry) :=
  match runOps B (es.map Op.logOp ++ [Op.flushOp]) (registerLogger (initLogger N)) with
  | none => none
  | some (errs, _, L) =>
    if errs = [] then
      match runOps B (List.replicate L.buffersFull.peek Op.drainOp) L with
      | none => none
      | some (_, tr, _) => some tr
    else none

/-- States reachable from a freshly registered logger with N arenas by any
sequence of defined log, flush and drain steps. -/
inductive Reach (B N : Nat) : LocalLogger → Prop where
  | init : Reach B N (registerLogger (initLogger N))
  | next (L : LocalLogger) (op : Op) (errs : List String) (tr : List LogEntry)
      (L1 : LocalLogger) :
      Reach B N L → step B op L = some (errs, tr, L1) → Reach B N L1

/-- WalkOk mem p q l: starting at offset p, the dump walk over mem reads
exactly the offset and entry pairs l and stops at offset q; every entry has
positive raw size, as sizeof is positive in C++. -/
inductive WalkOk (mem : Nat → Option LogEntry) : Nat → Nat → List (Nat × LogEntry) → Prop where
  | nil (p : Nat) : WalkOk mem p p []
  | cons (p q : Nat) (e : LogEntry) (l : List (Nat × LogEntry)) :
      mem p = some e → 0 < e.size →
      WalkOk mem (p + alignedSize e.size) q l →
      WalkOk mem p q ((p, e) :: l)

/-- Abstraction relation for one arena: b holds exactly the entries es,
laid out consecutively from offset 0 up to m_pos, and m_count agrees. -/
def Inv (b : EntryBuffer) (es : List LogEntry) : Prop :=
  ∃ l, WalkOk b.m_buffer 0 b.m_pos l ∧ l.map Prod.snd = es ∧ b.m_count = es.length

/-- Producer phase invariant: the logger holds the handed off arena
contents gs in its first arenas, the current partial arena holds cur, the
remaining arenas are untouched, and no arena has been drained yet. -/
def Good (N : Nat) (L : LocalLogger) (gs : List (List LogEntry)) (cur : List LogEntry) : Prop :=
  ∃ bufs cbuf,
    L.buffers = bufs ++ cbuf :: List.replicate (N - (gs.length + 1)) emptyBuffer ∧
    List.Forall₂ Inv bufs gs ∧
    Inv cbuf cur ∧
    gs.length < N ∧
    L.writeIndex = gs.length ∧
    L.readIndex = 0 ∧
    L.buffersFull.numPuts = gs.length ∧
    L.buffersFull.numGets = 0 ∧
    L.server = true

/-- Terminal producer phase state in which a log retry wrapped onto the
oldest handed off arena: the logger is full, writeIndex is back at 0, and
arena 0 is non empty, so every further producer operation fires the error
hook. -/
def Wrapped (L : LocalLogger) : Prop :=
  L.buffersFull.peek = L.buffers.length ∧
  L.writeIndex = 0 ∧
  ∃ b, L.buffers[0]? = some b ∧ b.m_pos ≠ 0

/-- Consumer phase invariant: readIndex arenas have been drained already,
the next gs.length arenas hold the groups gs in hand off order, and the
semaphore count equals the number of undrained full arenas. -/
def DrainInv (L : LocalLogger) (gs : List (List LogEntry)) : Prop :=
  ∃ done bufs rest,
    L.buffers = done ++ bufs ++ rest ∧
    List.Forall₂ Inv bufs gs ∧
    L.readIndex = done.length ∧
    L.buffersFull.numPuts < 256 ∧
    L.buffersFull.numGets < 256 ∧
    L.buffersFull.peek = gs.length ∧
    L.buffers.length ≤ 255

/-- Registry part of LogServer: the registered logger handles in
registration order and the nLoggers counter. -/
structure LogServerReg where
  localLoggers : List Nat
  nLoggers : Nat
deriving DecidableEq

/-- LogServer::addLogger under a hook that returns.  Yields the hook
messages, the new registry, and the value of the server back reference of
the logger after the call (true means set to this server).  The code sets
the back reference after the capacity branch, unconditionally. -/
def addLogger (maxLoggers : Nat) (srv : LogServerReg) (loggerId : Nat)
    (_loggerServer : Bool) : List String × LogServerReg × Bool :=
  if srv.nLoggers = maxLoggers then
    ([msgRegistryFull], srv, true)
  else
    ([], { localLoggers := srv.localLoggers ++ [loggerId], nLoggers := srv.nLoggers + 1 },
      true)

/-- Actions of the consumer thread observable from LogServer::_process. -/
inductive ConsumerAct where
  | waitAct : ConsumerAct
  | dumpAllAct : ConsumerAct
deriving DecidableEq

/-- LogServer::_process as a function of the successive values read from
the volatile run flag: each loop iteration reads the flag once; a true
read performs platform wait then _dumpAll and loops; a false read exits
the loop and performs one final _dumpAll before returning. -/
def processTrace : List Bool → List ConsumerAct
  | [] => []
  | true :: rest => ConsumerAct.waitAct :: ConsumerAct.dumpAllAct :: processTrace rest
  | false :: _ => [ConsumerAct.dumpAllAct]

/-- The run flag of a LogServer. -/
structure RunFlag where
  run : Bool
deriving DecidableEq

/-- LogServer::shutdown: clear the run flag; the Bool records that platform
notify is called. -/
def shutdownServer (_s : RunFlag) : RunFlag × Bool :=
  ({ run := false }, true)

/-- Concrete record of raw size 16, one aligned unit. -/
def entrySize16 : LogEntry := { size := 16, tag := 0 }

/-- Concrete record of raw size 24, the sizeof of LogEntry of one int on
LP64; its aligned footprint is 32. -/
def entrySize24 : LogEntry := { size := 24, tag := 0 }

/-- Concrete operation sequence on a LocalLogger with two arenas of 64
bytes: fill and flush arena 0, fill and flush arena 1, drain twice, fill
and flush arena 0 again.  After these eight steps readIndex is 2 while one
arena is full and waiting. -/
def opsReadIndex : List Op :=
  [Op.logOp entrySize16, Op.flushOp, Op.logOp entrySize16, Op.flushOp,
   Op.drainOp, Op.drainOp, Op.logOp entrySize16, Op.flushOp]

/-- Concrete submission for the order preservation scenario: three records
of aligned footprint 32 against two arenas of 64 bytes, so that the third
record rolls over into the second arena. -/
def entriesOrder : List LogEntry :=
  [{ size := 24, tag := 1 }, { size := 24, tag := 2 }, { size := 24, tag := 3 }]

/-- Concrete push sequence for the offset agreement claim. -/
def entriesOffsets : List LogEntry :=
  [{ size := 24, tag := 1 }, { size := 16, tag := 2 }, { size := 40, tag := 3 }]

/-- The arena obtained by pushing entriesOffsets into an empty 128 byte
arena. -/
def bufOffsets : EntryBuffer :=
  (pushElem 128 (pushElem 128 (pushElem 128 emptyBuffer
    { size := 24, tag := 1 }).2 { size := 16, tag := 2 }).2 { size := 40, tag := 3 }).2

/-! Basic facts about alignedSize and pushElem. -/

theorem alignedSize_pos {sz : Nat} (h : 0 < sz) : 0 < alignedSize sz := by
  unfold alignedSize QUICKLOG_ALIGN
  split <;> omega

theorem alignedSize_ge (sz : Nat) : sz ≤ alignedSize sz := by
  unfold alignedSize QUICKLOG_ALIGN
  split <;> omega

theorem alignedSize_mod (sz : Nat) : alignedSize sz % QUICKLOG_ALIGN = 0 := by
  unfold alignedSize QUICKLOG_ALIGN
  split <;> omega

theorem pushElem_of_fit {B : Nat} {buf : EntryBuffer} {e : LogEntry}
    (h : alignedSize e.size + buf.m_pos ≤ B) :
    pushElem B buf e =
      (true,
        { m_count := buf.m_count + 1,
          m_pos := buf.m_pos + alignedSize e.size,
          m_buffer := fun o => if o = buf.m_pos then some e else buf.m_buffer o }) := by
  unfold pushElem
  rw [if_neg (by omega)]

theorem pushElem_of_nofit {B : Nat} {buf : EntryBuffer} {e : LogEntry}
    (h : B < alignedSize e.size + buf.m_pos) :
    pushElem B buf e = (false, buf) := by
  unfold pushElem
  rw [if_pos (by omega)]

theorem pushElem_true_iff (B : Nat) (buf : EntryBuffer) (e : LogEntry) :
    (pushElem B buf e).1 = true ↔ alignedSize e.size + buf.m_pos ≤ B := by
  rcases le_or_lt (alignedSize e.size + buf.m_pos) B with h | h
  · rw [pushElem_of_fit h]
    simpa using h
  · rw [pushElem_of_nofit h]
    simpa using Nat.not_le_of_lt h

/-- Claim C2: pushElem succeeds exactly when the aligned size of the record
added to m_pos fits within the capacity B; on success m_pos grows by
exactly the aligned size and m_count by exactly one; on failure the arena
is returned unchanged; and a record whose aligned size exactly equals the
remaining space is accepted. -/
theorem C2_pushElem (B : Nat) (buf : EntryBuffer) (e : LogEntry) :
    ((pushElem B buf e).1 = true ↔ alignedSize e.size + buf.m_pos ≤ B)
    ∧ ((pushElem B buf e).1 = true →
        (pushElem B buf e).2.m_pos = buf.m_pos + alignedSize e.size
        ∧ (pushElem B buf e).2.m_count = buf.m_count + 1)
    ∧ ((pushElem B buf e).1 = false → (pushElem B buf e).2 = buf)
    ∧ (alignedSize e.size + buf.m_pos = B → (pushElem B buf e).1 = true) := by
  refine ⟨pushElem_true_iff B buf e, ?_, ?_, ?_⟩
  · intro h
    rw [pushElem_of_fit ((pushElem_true_iff B buf e).1 h)]
    exact ⟨rfl, rfl⟩
  · intro h
    rcases le_or_lt (alignedSize e.size + buf.m_pos) B with hle | hlt
    · rw [pushElem_of_fit hle] at h
      simp at h
    · rw [pushElem_of_nofit hlt]
  · intro h
    exact (pushElem_true_iff B buf e).2 (Nat.le_of_eq h)

/-- Witness for C2 at a concrete exact fit: a second record of aligned size
16 into a 32 byte arena already holding 16 bytes is accepted. -/
theorem C2_pushElem_witness :
    (pushElem 32 (pushElem 32 emptyBuffer entrySize16).2 entrySize16).1 = true :=
  (C2_pushElem 32 (pushElem 32 emptyBuffer entrySize16).2 entrySize16).2.2.2 (by decide)

/-- Claim C5 counterexample: pushing a record of raw size 24 (the sizeof of
LogEntry of one int on LP64) into an empty 64 byte arena stores 24 as its
size field while the record occupies an aligned footprint of 32 bytes, so
the stored size field differs from the aligned footprint. -/
theorem C5_size_field_counterexample :
    (pushElem 64 emptyBuffer entrySize24).1 = true
    ∧ (pushElem 64 emptyBuffer entrySize24).2.m_buffer 0 = some entrySize24
    ∧ entrySize24.size = 24
    ∧ (pushElem 64 emptyBuffer entrySize24).2.m_pos = 32
    ∧ (24 : Nat) ≠ 32 := by
  decide

/-- Claim C5 amended: for every record stored by a successful pushElem, the
size field stored in the arena is the raw representation size of the
record, and the aligned footprint the record occupies, the amount by which
m_pos advances, equals alignedSize of that stored size, which is a
multiple of the maximum scalar alignment and at least the stored size. -/
theorem C5_size_field_amended (B : Nat) (buf : EntryBuffer) (e : LogEntry)
    (h : (pushElem B buf e).1 = true) :
    (pushElem B buf e).2.m_buffer buf.m_pos = some e
    ∧ (pushElem B buf e).2.m_pos = buf.m_pos + alignedSize e.size
    ∧ e.size ≤ alignedSize e.size
    ∧ alignedSize e.size % QUICKLOG_ALIGN = 0 := by
  rw [pushElem_of_fit ((pushElem_true_iff B buf e).1 h)]
  exact ⟨by simp, rfl, alignedSize_ge e.size, alignedSize_mod e.size⟩

/-- Witness for the amended C5 at the concrete size 24 record. -/
theorem C5_size_field_amended_witness :
    (pushElem 64 emptyBuffer entrySize24).2.m_buffer 0 = some entrySize24
    ∧ (pushElem 64 emptyBuffer entrySize24).2.m_pos = 0 + alignedSize entrySize24.size
    ∧ entrySize24.size ≤ alignedSize entrySize24.size
    ∧ alignedSize entrySize24.size % QUICKLOG_ALIGN = 0 :=
  C5_size_field_amended 64 emptyBuffer entrySize24 (by decide)

/-- Claim C6 counterexample: adding a logger to a full registry fires the
hook and leaves the registry and count unchanged, but the server back
reference of the logger is still set, so the operation is not a complete
no-op. -/
theorem C6_addLogger_counterexample :
    (addLogger 1 { localLoggers := [7], nLoggers := 1 } 9 false).1 = [msgRegistryFull]
    ∧ (addLogger 1 { localLoggers := [7], nLoggers := 1 } 9 false).2.1
        = { localLoggers := [7], nLoggers := 1 }
    ∧ (addLogger 1 { localLoggers := [7], nLoggers := 1 } 9 false).2.2 = true
    ∧ true ≠ false := by
  decide

/-- Claim C6 amended: when the registry already holds maxLoggers loggers,
addLogger fires the error hook and, if the hook returns, leaves the
registry contents and the logger count unchanged, but still sets the
server back reference of the logger to this server. -/
theorem C6_addLogger_amended (m : Nat) (srv : LogServerReg) (lid : Nat) (b : Bool)
    (h : srv.nLoggers = m) :
    addLogger m srv lid b = ([msgRegistryFull], srv, true) := by
  unfold addLogger
  rw [if_pos h]

/-- Witness for the amended C6 at a concrete full registry. -/
theorem C6_addLogger_amended_witness :
    addLogger 1 { localLoggers := [7], nLoggers := 1 } 9 false
      = ([msgRegistryFull], { localLoggers := [7], nLoggers := 1 }, true) :=
  C6_addLogger_amended 1 { localLoggers := [7], nLoggers := 1 } 9 false rfl

/-! Semaphore run lemmas. -/

theorem getFatal_eq_some {s s2 : Semaphore} (h : s.getFatal = some s2) :
    s.numPuts ≠ s.numGets ∧ s2 = { s with numGets := (s.numGets + 1) % 256 } := by
  unfold Semaphore.getFatal at h
  split at h
  · simp at h
  · rename_i hne
    simp only [Option.some.injEq] at h
    exact ⟨hne, h.symm⟩

theorem semRun_counts (ops : List SemOp) :
    ∀ s s1 : Semaphore, s.numPuts < 256 → s.numGets < 256 → semRun s ops = some s1 →
    s1.numPuts = (s.numPuts + ops.count SemOp.putOp) % 256
    ∧ s1.numGets = (s.numGets + ops.count SemOp.takeOp) % 256 := by
  induction ops with
  | nil =>
    intro s s1 hp hg h
    simp only [semRun, Option.some.injEq] at h
    subst h
    simp only [List.count_nil, Nat.add_zero]
    constructor <;> omega
  | cons op rest ih =>
    intro s s1 hp hg h
    cases op with
    | putOp =>
      simp only [semRun] at h
      have hc := ih s.put s1 (by simp [Semaphore.put]; omega) (by simpa [Semaphore.put] using hg) h
      rcases hc with ⟨h1, h2⟩
      simp only [Semaphore.put] at h1 h2
      constructor
      · rw [h1]
        simp [List.count_cons]
        omega
      · rw [h2]
        simp [List.count_cons]
    | takeOp =>
      simp only [semRun] at h
      cases hF : s.getFatal with
      | none => rw [hF] at h; simp at h
      | some s2 =>
        rw [hF] at h
        rcases getFatal_eq_some hF with ⟨hne, hs2⟩
        subst hs2
        have hc := ih _ s1 (by simpa using hp) (by simp; omega) h
        rcases hc with ⟨h1, h2⟩
        simp only at h1 h2
        constructor
        · rw [h1]
          simp [List.count_cons]
        · rw [h2]
          simp [List.count_cons]
          omega

/-- Claim C8: for every sequence of put and take in which every take
happens at nonzero count (the run under the default hook completes), peek
equals the number of puts minus the number of takes reduced modulo 256;
and a take at zero count fires the underflow hook instead of
decrementing: under the default hook it aborts before touching numGets,
and the hook flag of get is set exactly when the counters are equal. -/
theorem C8_semaphore (ops : List SemOp) (s : Semaphore)
    (h : semRun { numPuts := 0, numGets := 0 } ops = some s) :
    ((s.peek : Int)
        = ((ops.count SemOp.putOp : Int) - (ops.count SemOp.takeOp : Int)) % 256)
    ∧ (∀ t : Semaphore, t.numPuts = t.numGets → t.getFatal = none ∧ (t.get).1 = true) := by
  constructor
  · have hc := semRun_counts ops { numPuts := 0, numGets := 0 } s
      (by decide) (by decide) h
    rcases hc with ⟨h1, h2⟩
    unfold Semaphore.peek
    rw [h1, h2]
    simp only [Nat.zero_add]
    omega
  · intro t ht
    constructor
    · unfold Semaphore.getFatal
      rw [if_pos ht]
    · unfold Semaphore.get
      simp [ht]

/-- Witness for C8 on the run put, put, take. -/
theorem C8_semaphore_witness :
    ((({ numPuts := 2, numGets := 1 } : Semaphore).peek : Int)
        = (([SemOp.putOp, SemOp.putOp, SemOp.takeOp].count SemOp.putOp : Int)
            - ([SemOp.putOp, SemOp.putOp, SemOp.takeOp].count SemOp.takeOp : Int)) % 256) :=
  (C8_semaphore [SemOp.putOp, SemOp.putOp, SemOp.takeOp]
    { numPuts := 2, numGets := 1 } (by decide)).1

/-- Claim C9: the consumer loop alternates platform wait and a drain pass
while every read of the run flag is true, performs exactly one more drain
pass after the first false read, then returns; and shutdown clears the run
flag and calls platform notify. -/
theorem C9_consumer_loop (k : Nat) (f : RunFlag) :
    processTrace (List.replicate k true ++ [false])
      = (List.replicate k [ConsumerAct.waitAct, ConsumerAct.dumpAllAct]).flatten
          ++ [ConsumerAct.dumpAllAct]
    ∧ shutdownServer f = ({ run := false }, true) := by
  constructor
  · induction k with
    | zero => rfl
    | succ n ih =>
      simp only [List.replicate_succ, List.cons_append, processTrace, List.flatten_cons,
        List.append_eq]
      rw [ih]
      simp
  · rfl

/-- Witness for C9 at two true reads before the false read. -/
theorem C9_consumer_loop_witness :
    processTrace [true, true, false]
      = [ConsumerAct.waitAct, ConsumerAct.dumpAllAct, ConsumerAct.waitAct,
          ConsumerAct.dumpAllAct, ConsumerAct.dumpAllAct] :=
  (C9_consumer_loop 2 { run := true }).1

/-! Lemmas about the dump walk over an arena. -/

theorem walkOk_le {mem : Nat → Option LogEntry} {p q : Nat}
    {l : List (Nat × LogEntry)} (h : WalkOk mem p q l) : p ≤ q := by
  induction h with
  | nil p => exact Nat.le_refl p
  | cons p q e l hm hsz hw ih => omega

theorem walkOk_dumpWalk {mem : Nat → Option LogEntry} {p q : Nat}
    {l : List (Nat × LogEntry)} (h : WalkOk mem p q l) :
    dumpWalk mem l.length p = l := by
  induction h with
  | nil p => rfl
  | cons p q e l hm hsz hw ih =>
    show dumpWalk mem (l.length + 1) p = (p, e) :: l
    simp only [dumpWalk, hm]
    exact congrArg (List.cons (p, e)) ih

theorem walkOk_update {mem : Nat → Option LogEntry} {p q : Nat}
    {l : List (Nat × LogEntry)} (h : WalkOk mem p q l) :
    ∀ r, q ≤ r → ∀ v, WalkOk (fun o => if o = r then v else mem o) p q l := by
  induction h with
  | nil p => intro r hr v; exact WalkOk.nil p
  | cons p q e l hm hsz hw ih =>
    intro r hr v
    have h1 : p + alignedSize e.size ≤ q := walkOk_le hw
    have h2 : 0 < alignedSize e.size := alignedSize_pos hsz
    refine WalkOk.cons p q e l ?_ hsz (ih r hr v)
    show (if p = r then v else mem p) = some e
    rw [if_neg (by omega)]
    exact hm

theorem walkOk_append {mem : Nat → Option LogEntry} :
    ∀ {p q : Nat} {l1 : List (Nat × LogEntry)}, WalkOk mem p q l1 →
    ∀ {r : Nat} {l2 : List (Nat × LogEntry)}, WalkOk mem q r l2 →
    WalkOk mem p r (l1 ++ l2) := by
  intro p q l1 h1
  induction h1 with
  | nil p => intro r l2 h2; simpa using h2
  | cons p q e l hm hsz hw ih =>
    intro r l2 h2
    exact WalkOk.cons _ _ _ _ hm hsz (ih h2)

theorem walkOk_layout {mem : Nat → Option LogEntry} {p q : Nat}
    {l : List (Nat × LogEntry)} (h : WalkOk mem p q l) :
    l = layout p (l.map Prod.snd) := by
  induction h with
  | nil p => rfl
  | cons p q e l hm hsz hw ih =>
    simp only [List.map_cons, layout]
    exact congrArg (List.cons (p, e)) ih

/-! Lemmas about the arena abstraction relation. -/

theorem inv_emptyBuffer : Inv emptyBuffer [] :=
  ⟨[], WalkOk.nil 0, rfl, rfl⟩

theorem inv_dump {b : EntryBuffer} {es : List LogEntry} (h : Inv b es) :
    (b.dump).1 = es := by
  rcases h with ⟨l, hw, hmap, hc⟩
  show (dumpWalk b.m_buffer b.m_count 0).map Prod.snd = es
  have hlen : l.length = es.length := by rw [← hmap, List.length_map]
  rw [hc, ← hlen, walkOk_dumpWalk hw, hmap]

theorem walkOk_nil_eq {mem : Nat → Option LogEntry} {p q : Nat}
    (h : WalkOk mem p q []) : p = q := by
  cases h
  rfl

theorem inv_pos_zero {b : EntryBuffer} {es : List LogEntry} (h : Inv b es) :
    b.m_pos = 0 ↔ es = [] := by
  rcases h with ⟨l, hw, hmap, hc⟩
  constructor
  · intro h0
    rw [h0] at hw
    cases hw with
    | nil => simpa using hmap.symm
    | cons p q e l2 hm hsz hw2 =>
      have hle := walkOk_le hw2
      have hpos := alignedSize_pos hsz
      omega
  · intro h0
    subst h0
    have hl : l = [] := by
      cases l with
      | nil => rfl
      | cons a l2 => simp at hmap
    subst hl
    exact (walkOk_nil_eq hw).symm

theorem inv_push {b : EntryBuffer} {es : List LogEntry} (hInv : Inv b es)
    {B : Nat} {e : LogEntry} (hsz : 0 < e.size)
    (h : (pushElem B b e).1 = true) :
    Inv (pushElem B b e).2 (es ++ [e]) := by
  rcases hInv with ⟨l, hw, hmap, hc⟩
  rw [pushElem_of_fit ((pushElem_true_iff B b e).1 h)]
  refine ⟨l ++ [(b.m_pos, e)], ?_, ?_, ?_⟩
  · have hw1 : WalkOk (fun o => if o = b.m_pos then some e else b.m_buffer o) 0 b.m_pos l :=
      walkOk_update hw b.m_pos (Nat.le_refl _) (some e)
    have hw2 : WalkOk (fun o => if o = b.m_pos then some e else b.m_buffer o)
        b.m_pos (b.m_pos + alignedSize e.size) [(b.m_pos, e)] := by
      refine WalkOk.cons _ _ _ _ ?_ hsz (WalkOk.nil _)
      show (if b.m_pos = b.m_pos then some e else b.m_buffer b.m_pos) = some e
      rw [if_pos rfl]
    exact walkOk_append hw1 hw2
  · simp [hmap]
  · simp [hc]

theorem pushAll_inv (B : Nat) :
    ∀ (es2 : List LogEntry) (b : EntryBuffer) (es : List LogEntry),
    Inv b es → (∀ x ∈ es2, 0 < x.size) → ∀ b1, pushAll B b es2 = some b1 →
    Inv b1 (es ++ es2) := by
  intro es2
  induction es2 with
  | nil =>
    intro b es hI hpos b1 h
    simp only [pushAll, Option.some.injEq] at h
    subst h
    simpa using hI
  | cons e rest ih =>
    intro b es hI hpos b1 h
    simp only [pushAll] at h
    split at h
    · rename_i hTrue
      have hI2 := inv_push hI (hpos e (by simp)) hTrue
      have hres := ih (pushElem B b e).2 (es ++ [e]) hI2
        (fun x hx => hpos x (by simp [hx])) b1 h
      simpa using hres
    · simp at h

/-- Claim C10: push offsets and drain offsets agree inside one arena.  For
every sequence of positive size records accepted by pushElem into an
initially empty arena, the dump walk visits exactly the offsets at which
pushElem wrote the records, in insertion order, because both sides advance
by alignedSize of the raw record size; consequently the dump trace is
exactly the pushed sequence. -/
theorem C10_offsets_agree (B : Nat) (es : List LogEntry) (buf : EntryBuffer)
    (hpos : ∀ x ∈ es, 0 < x.size)
    (h : pushAll B emptyBuffer es = some buf) :
    dumpWalk buf.m_buffer buf.m_count 0 = layout 0 es
    ∧ (buf.dump).1 = es := by
  have hI : Inv buf es := by
    have hres := pushAll_inv B es emptyBuffer [] inv_emptyBuffer hpos buf h
    simpa using hres
  constructor
  · rcases hI with ⟨l, hw, hmap, hc⟩
    have hlen : l.length = es.length := by rw [← hmap, List.length_map]
    rw [hc, ← hlen, walkOk_dumpWalk hw]
    rw [walkOk_layout hw, hmap]
  · exact inv_dump hI

/-- Witness for C10 at three concrete records of footprints 32, 16 and
48. -/
theorem C10_offsets_agree_witness :
    dumpWalk bufOffsets.m_buffer bufOffsets.m_count 0 = layout 0 entriesOffsets :=
  (C10_offsets_agree 128 entriesOffsets bufOffsets (by decide) rfl).1

/-- Claim C1, evaluated at the failing input.  On a logger with two arenas,
after filling and flushing arena 0, filling and flushing arena 1, draining
both, and filling and flushing arena 0 again, no hook fired and one arena
is full and waiting, but readIndex is 2, not 0: LocalLogger::dump advances
readIndex with a plain uint8_t increment and never reduces it modulo the
number of arenas.  The next drain therefore reads buffers[2], one past the
end of the two element array, which the model reports as undefined
behaviour (none). -/
theorem C1_read_index_escapes :
    (runOps 64 opsReadIndex (registerLogger (initLogger 2))).map
        (fun r => (r.1, r.2.2.readIndex, r.2.2.buffersFull.peek))
      = some ([], 2, 1)
    ∧ runOps 64 (opsReadIndex ++ [Op.drainOp]) (registerLogger (initLogger 2)) = none := by
  exact ⟨rfl, rfl⟩

/-! Branch lemmas for the LocalLogger operations. -/

theorem full_true_iff (L : LocalLogger) :
    L.full = true ↔ L.buffersFull.peek = L.buffers.length := by
  simp [LocalLogger.full]

theorem full_false_iff (L : LocalLogger) :
    L.full = false ↔ L.buffersFull.peek ≠ L.buffers.length := by
  simp [LocalLogger.full]

theorem nextIndex_of_not_full {L : LocalLogger} (h : L.full = false)
    (hs : L.server = true) :
    L.nextIndex = ([], { L with writeIndex := (L.writeIndex + 1) % L.buffers.length,
                                buffersFull := L.buffersFull.put }) := by
  unfold LocalLogger.nextIndex
  simp [h, hs]

theorem nextIndex_of_full {L : LocalLogger} (h : L.full = true) :
    L.nextIndex = ([msgNextIndexFull], L) := by
  unfold LocalLogger.nextIndex
  simp [h]

theorem log_of_full {B : Nat} {L : LocalLogger} {e : LogEntry} (h : L.full = true) :
    L.log B e = some ([msgLoggerFull], L) := by
  unfold LocalLogger.log
  simp [h]

theorem log_of_push1 {B : Nat} {L : LocalLogger} {e : LogEntry} {buf : EntryBuffer}
    (h : L.full = false) (hbuf : L.buffers[L.writeIndex]? = some buf)
    (hp : (pushElem B buf e).1 = true) :
    L.log B e
      = some ([], { L with buffers := L.buffers.set L.writeIndex (pushElem B buf e).2 }) := by
  unfold LocalLogger.log
  simp [h, hbuf, hp]

theorem log_of_push2 {B : Nat} {L : LocalLogger} {e : LogEntry} {buf buf2 : EntryBuffer}
    (h : L.full = false) (hbuf : L.buffers[L.writeIndex]? = some buf)
    (hp : (pushElem B buf e).1 = false)
    (hbuf2 : (L.nextIndex).2.buffers[(L.nextIndex).2.writeIndex]? = some buf2)
    (hp2 : (pushElem B buf2 e).1 = true) :
    L.log B e
      = some ((L.nextIndex).1,
          { (L.nextIndex).2 with
              buffers := (L.nextIndex).2.buffers.set (L.nextIndex).2.writeIndex
                (pushElem B buf2 e).2 }) := by
  unfold LocalLogger.log
  simp [h, hbuf, hp, hbuf2, hp2]

theorem log_of_fail2 {B : Nat} {L : LocalLogger} {e : LogEntry} {buf buf2 : EntryBuffer}
    (h : L.full = false) (hbuf : L.buffers[L.writeIndex]? = some buf)
    (hp : (pushElem B buf e).1 = false)
    (hbuf2 : (L.nextIndex).2.buffers[(L.nextIndex).2.writeIndex]? = some buf2)
    (hp2 : (pushElem B buf2 e).1 = false) :
    L.log B e = some ((L.nextIndex).1 ++ [msgEntryTooLarge], (L.nextIndex).2) := by
  unfold LocalLogger.log
  simp [h, hbuf, hp, hbuf2, hp2]

/-- Claim C3: LocalLogger::log on a registered logger.  When the logger is
full, the hook fires with the logger full message and, if it returns, the
event is dropped with the state unchanged.  Otherwise pushElem is
attempted on buffers[writeIndex]; on failure nextIndex is called (with no
hook message, since the logger is registered) and the push is retried
exactly once on the new current arena; the hook fires with the entry
larger than buffer message exactly when that second push also fails. -/
theorem C3_log_behavior (B : Nat) (L : LocalLogger) (e : LogEntry) (buf : EntryBuffer)
    (hreg : L.server = true)
    (hbuf : L.buffers[L.writeIndex]? = some buf) :
    (L.full = true → L.log B e = some ([msgLoggerFull], L))
    ∧ (L.full = false → (L.nextIndex).1 = [])
    ∧ (L.full = false → (pushElem B buf e).1 = true →
        L.log B e
          = some ([], { L with buffers := L.buffers.set L.writeIndex (pushElem B buf e).2 }))
    ∧ (L.full = false → (pushElem B buf e).1 = false →
        ∀ buf2 : EntryBuffer,
          (L.nextIndex).2.buffers[(L.nextIndex).2.writeIndex]? = some buf2 →
          ((pushElem B buf2 e).1 = true →
            L.log B e
              = some ([],
                  { (L.nextIndex).2 with
                      buffers := (L.nextIndex).2.buffers.set (L.nextIndex).2.writeIndex
                        (pushElem B buf2 e).2 }))
          ∧ ((pushElem B buf2 e).1 = false →
            L.log B e = some ([msgEntryTooLarge], (L.nextIndex).2))) := by
  refine ⟨fun hfull => log_of_full hfull, ?_, ?_, ?_⟩
  · intro hfull
    rw [nextIndex_of_not_full hfull hreg]
  · intro hfull hp
    exact log_of_push1 hfull hbuf hp
  · intro hfull hp buf2 hbuf2
    have hn1 : (L.nextIndex).1 = [] := by rw [nextIndex_of_not_full hfull hreg]
    constructor
    · intro hp2
      have hres := log_of_push2 hfull hbuf hp hbuf2 hp2
      rw [hn1] at hres
      exact hres
    · intro hp2
      have hres := log_of_fail2 hfull hbuf hp hbuf2 hp2
      rw [hn1] at hres
      exact hres

/-- Witness for C3 at a fresh registered logger with two arenas: the first
push succeeds and no hook fires. -/
theorem C3_log_behavior_witness :
    (registerLogger (initLogger 2)).log 64 entrySize16
      = some ([], { registerLogger (initLogger 2) with
          buffers := (registerLogger (initLogger 2)).buffers.set
            (registerLogger (initLogger 2)).writeIndex
            (pushElem 64 emptyBuffer entrySize16).2 }) :=
  (C3_log_behavior 64 (registerLogger (initLogger 2)) entrySize16 emptyBuffer
    rfl rfl).2.2.1 rfl rfl

theorem nextIndex_state_of_not_full {L : LocalLogger} (h : L.full = false) :
    (L.nextIndex).2 = { L with writeIndex := (L.writeIndex + 1) % L.buffers.length,
                               buffersFull := L.buffersFull.put } := by
  unfold LocalLogger.nextIndex
  cases hs : L.server <;> simp [h, hs]

theorem flush_of_empty {L : LocalLogger} {buf : EntryBuffer}
    (hbuf : L.buffers[L.writeIndex]? = some buf) (he : buf.isEmpty = true) :
    L.flush = some ([], L) := by
  unfold LocalLogger.flush
  simp [hbuf, he]

theorem flush_of_nonempty {L : LocalLogger} {buf : EntryBuffer}
    (hbuf : L.buffers[L.writeIndex]? = some buf) (he : buf.isEmpty = false) :
    L.flush = some L.nextIndex := by
  unfold LocalLogger.flush
  simp [hbuf, he]

theorem dump_of_zero {L : LocalLogger} (h : L.buffersFull.peek = 0) :
    L.dump = some (false, [], L) := by
  unfold LocalLogger.dump
  simp [h]

theorem dump_of_ready {L : LocalLogger} {buf : EntryBuffer}
    (h : L.buffersFull.peek ≠ 0) (hbuf : L.buffers[L.readIndex]? = some buf) :
    L.dump = some (true, (buf.dump).1,
      { L with buffers := L.buffers.set L.readIndex (buf.dump).2,
               readIndex := (L.readIndex + 1) % 256,
               buffersFull := (L.buffersFull.get).2 }) := by
  unfold LocalLogger.dump
  simp [h, hbuf]

theorem dump_of_oob {L : LocalLogger}
    (h : L.buffersFull.peek ≠ 0) (hbuf : L.buffers[L.readIndex]? = none) :
    L.dump = none := by
  unfold LocalLogger.dump
  simp [h, hbuf]

theorem step_log_some {B : Nat} {e : LogEntry} {L : LocalLogger} {errs : List String}
    {tr : List LogEntry} {L1 : LocalLogger}
    (h : step B (Op.logOp e) L = some (errs, tr, L1)) :
    L.log B e = some (errs, L1) ∧ tr = [] := by
  simp only [step] at h
  rcases Option.map_eq_some'.1 h with ⟨r, hr, heq⟩
  injection heq with h1 h23
  injection h23 with h2 h3
  subst h1
  subst h2
  subst h3
  exact ⟨hr, rfl⟩

theorem step_flush_some {B : Nat} {L : LocalLogger} {errs : List String}
    {tr : List LogEntry} {L1 : LocalLogger}
    (h : step B Op.flushOp L = some (errs, tr, L1)) :
    L.flush = some (errs, L1) ∧ tr = [] := by
  simp only [step] at h
  rcases Option.map_eq_some'.1 h with ⟨r, hr, heq⟩
  injection heq with h1 h23
  injection h23 with h2 h3
  subst h1
  subst h2
  subst h3
  exact ⟨hr, rfl⟩

theorem step_drain_some {B : Nat} {L : LocalLogger} {errs : List String}
    {tr : List LogEntry} {L1 : LocalLogger}
    (h : step B Op.drainOp L = some (errs, tr, L1)) :
    (∃ w : Bool, L.dump = some (w, tr, L1)) ∧ errs = [] := by
  simp only [step] at h
  rcases Option.map_eq_some'.1 h with ⟨r, hr, heq⟩
  injection heq with h1 h23
  injection h23 with h2 h3
  subst h1
  subst h2
  subst h3
  exact ⟨⟨r.1, hr⟩, rfl⟩

/-- Invariant of every reachable logger state: the arena count is N, the
write index is in range, the semaphore counters are reduced bytes, and the
count of full arenas never exceeds N. -/
theorem reach_inv {B N : Nat} {L : LocalLogger} (h : Reach B N L)
    (hN1 : 1 ≤ N) (hN2 : N ≤ 255) :
    L.buffers.length = N ∧ L.writeIndex < N
    ∧ L.buffersFull.numPuts < 256 ∧ L.buffersFull.numGets < 256
    ∧ L.buffersFull.peek ≤ N := by
  induction h with
  | init =>
    refine ⟨by simp [registerLogger, initLogger], ?_, ?_, ?_, ?_⟩ <;>
      simp [registerLogger, initLogger, Semaphore.peek] <;> omega
  | next L op errs tr L1 hR hstep ih =>
    rcases ih with ⟨hlen, hw, hp, hg, hpk⟩
    cases op with
    | logOp e =>
      rcases step_log_some hstep with ⟨hlog, -⟩
      cases hfull : L.full with
      | true =>
        rw [log_of_full hfull] at hlog
        simp only [Option.some.injEq] at hlog
        injection hlog with h1 h2
        subst h2
        exact ⟨hlen, hw, hp, hg, hpk⟩
      | false =>
        have hne : L.buffersFull.peek ≠ N := by
          have := (full_false_iff L).1 hfull
          rwa [hlen] at this
        obtain ⟨buf, hbuf⟩ : ∃ buf, L.buffers[L.writeIndex]? = some buf := by
          have hlt : L.writeIndex < L.buffers.length := by omega
          exact ⟨L.buffers[L.writeIndex], List.getElem?_eq_getElem hlt⟩
        cases hp1 : (pushElem B buf e).1 with
        | true =>
          rw [log_of_push1 hfull hbuf hp1] at hlog
          simp only [Option.some.injEq] at hlog
          injection hlog with h1 h2
          subst h2
          refine ⟨by simpa using hlen, by simpa using hw, by simpa using hp,
            by simpa using hg, by simpa using hpk⟩
        | false =>
          have hnext : (L.nextIndex).2
              = { L with writeIndex := (L.writeIndex + 1) % L.buffers.length,
                         buffersFull := L.buffersFull.put } :=
            nextIndex_state_of_not_full hfull
          have hn_len : (L.nextIndex).2.buffers.length = N := by rw [hnext]; exact hlen
          have hn_w : (L.nextIndex).2.writeIndex < N := by
            rw [hnext]
            simp only
            rw [hlen]
            exact Nat.mod_lt _ (by omega)
          have hn_p : (L.nextIndex).2.buffersFull.numPuts < 256 := by
            rw [hnext]
            simp only [Semaphore.put]
            omega
          have hn_g : (L.nextIndex).2.buffersFull.numGets < 256 := by
            rw [hnext]
            simpa [Semaphore.put] using hg
          have hn_pk : (L.nextIndex).2.buffersFull.peek ≤ N := by
            rw [hnext]
            simp only [Semaphore.put, Semaphore.peek] at hpk hne ⊢
            omega
          obtain ⟨buf2, hbuf2⟩ :
              ∃ buf2, (L.nextIndex).2.buffers[(L.nextIndex).2.writeIndex]? = some buf2 := by
            have hlt : (L.nextIndex).2.writeIndex < (L.nextIndex).2.buffers.length := by
              omega
            exact ⟨(L.nextIndex).2.buffers[(L.nextIndex).2.writeIndex],
              List.getElem?_eq_getElem hlt⟩
          cases hp2 : (pushElem B buf2 e).1 with
          | true =>
            rw [log_of_push2 hfull hbuf hp1 hbuf2 hp2] at hlog
            simp only [Option.some.injEq] at hlog
            injection hlog with h1 h2
            subst h2
            refine ⟨by simpa using hn_len, by simpa using hn_w, by simpa using hn_p,
              by simpa using hn_g, by simpa using hn_pk⟩
          | false =>
            rw [log_of_fail2 hfull hbuf hp1 hbuf2 hp2] at hlog
            simp only [Option.some.injEq] at hlog
            injection hlog with h1 h2
            subst h2
            exact ⟨hn_len, hn_w, hn_p, hn_g, hn_pk⟩
    | flushOp =>
      rcases step_flush_some hstep with ⟨hfl, -⟩
      obtain ⟨buf, hbuf⟩ : ∃ buf, L.buffers[L.writeIndex]? = some buf := by
        have hlt : L.writeIndex < L.buffers.length := by omega
        exact ⟨L.buffers[L.writeIndex], List.getElem?_eq_getElem hlt⟩
      cases he : buf.isEmpty with
      | true =>
        rw [flush_of_empty hbuf he] at hfl
        simp only [Option.some.injEq] at hfl
        injection hfl with h1 h2
        subst h2
        exact ⟨hlen, hw, hp, hg, hpk⟩
      | false =>
        rw [flush_of_nonempty hbuf he] at hfl
        simp only [Option.some.injEq] at hfl
        cases hfull : L.full with
        | true =>
          rw [nextIndex_of_full hfull] at hfl
          injection hfl with h1 h2
          subst h2
          exact ⟨hlen, hw, hp, hg, hpk⟩
        | false =>
          have hne : L.buffersFull.peek ≠ N := by
            have := (full_false_iff L).1 hfull
            rwa [hlen] at this
          have hnext : (L.nextIndex).2
              = { L with writeIndex := (L.writeIndex + 1) % L.buffers.length,
                         buffersFull := L.buffersFull.put } :=
            nextIndex_state_of_not_full hfull
          have h2 : L1 = (L.nextIndex).2 := by
            rw [hfl]
          rw [h2, hnext]
          refine ⟨hlen, ?_, by simp only [Semaphore.put]; omega,
            by simpa [Semaphore.put] using hg, ?_⟩
          · simp only
            rw [hlen]
            exact Nat.mod_lt _ (by omega)
          · simp only [Semaphore.put, Semaphore.peek] at hpk hne ⊢
            omega
    | drainOp =>
      rcases step_drain_some hstep with ⟨⟨w, hdp⟩, -⟩
      cases hz : decide (L.buffersFull.peek = 0) with
      | true =>
        have hz' : L.buffersFull.peek = 0 := of_decide_eq_true hz
        rw [dump_of_zero hz'] at hdp
        simp only [Option.some.injEq] at hdp
        injection hdp with h1 h23
        injection h23 with h2 h3
        subst h3
        exact ⟨hlen, hw, hp, hg, hpk⟩
      | false =>
        have hz' : L.buffersFull.peek ≠ 0 := of_decide_eq_false hz
        cases hbuf : L.buffers[L.readIndex]? with
        | none => rw [dump_of_oob hz' hbuf] at hdp; simp at hdp
        | some buf =>
          rw [dump_of_ready hz' hbuf] at hdp
          simp only [Option.some.injEq] at hdp
          injection hdp with h1 h23
          injection h23 with h2 h3
          subst h3
          refine ⟨by simpa using hlen, by simpa using hw, by simpa using hp, ?_, ?_⟩
          · simp only [Semaphore.get]
            omega
          · simp only [Semaphore.get, Semaphore.peek] at hpk hz' ⊢
            omega

/-- Claim C7: with 1 ≤ N ≤ 255, in every state reachable from a fresh
registered logger by defined log, flush and drain steps, the count of full
arenas buffersFull.peek never exceeds N; and in a reachable state whose
peek equals N no operation increments numPuts or moves writeIndex: the
producer path drops the event through the error hook instead of advancing,
and a drain touches only numGets. -/
theorem C7_never_overfull {B N : Nat} {L : LocalLogger}
    (hN1 : 1 ≤ N) (hN2 : N ≤ 255) (h : Reach B N L) :
    L.buffersFull.peek ≤ N
    ∧ (L.buffersFull.peek = N →
        ∀ (op : Op) (errs : List String) (tr : List LogEntry) (L1 : LocalLogger),
          step B op L = some (errs, tr, L1) →
          L1.buffersFull.numPuts = L.buffersFull.numPuts
          ∧ L1.writeIndex = L.writeIndex) := by
  rcases reach_inv h hN1 hN2 with ⟨hlen, hw, hp, hg, hpk⟩
  refine ⟨hpk, ?_⟩
  intro hfullN op errs tr L1 hstep
  have hfull : L.full = true := by
    rw [full_true_iff, hlen, hfullN]
  cases op with
  | logOp e =>
    rcases step_log_some hstep with ⟨hlog, -⟩
    rw [log_of_full hfull] at hlog
    simp only [Option.some.injEq] at hlog
    injection hlog with h1 h2
    subst h2
    exact ⟨rfl, rfl⟩
  | flushOp =>
    rcases step_flush_some hstep with ⟨hfl, -⟩
    obtain ⟨buf, hbuf⟩ : ∃ buf, L.buffers[L.writeIndex]? = some buf := by
      have hlt : L.writeIndex < L.buffers.length := by omega
      exact ⟨L.buffers[L.writeIndex], List.getElem?_eq_getElem hlt⟩
    cases he : buf.isEmpty with
    | true =>
      rw [flush_of_empty hbuf he] at hfl
      simp only [Option.some.injEq] at hfl
      injection hfl with h1 h2
      subst h2
      exact ⟨rfl, rfl⟩
    | false =>
      rw [flush_of_nonempty hbuf he, nextIndex_of_full hfull] at hfl
      simp only [Option.some.injEq] at hfl
      injection hfl with h1 h2
      subst h2
      exact ⟨rfl, rfl⟩
  | drainOp =>
    rcases step_drain_some hstep with ⟨⟨w, hdp⟩, -⟩
    have hz' : L.buffersFull.peek ≠ 0 := by omega
    cases hbuf : L.buffers[L.readIndex]? with
    | none => rw [dump_of_oob hz' hbuf] at hdp; simp at hdp
    | some buf =>
      rw [dump_of_ready hz' hbuf] at hdp
      simp only [Option.some.injEq] at hdp
      injection hdp with h1 h23
      injection h23 with h2 h3
      subst h3
      exact ⟨by simp [Semaphore.get], by simp⟩

/-- Witness for C7 at the fresh registered two arena logger. -/
theorem C7_never_overfull_witness :
    (registerLogger (initLogger 2)).buffersFull.peek ≤ 2 :=
  (C7_never_overfull (by decide) (by decide) (Reach.init (B := 64) (N := 2))).1

/-! List access helpers used by the ring invariants. -/

theorem getElem?_append_add {α : Type} (l1 l2 : List α) (i : Nat) :
    (l1 ++ l2)[l1.length + i]? = l2[i]? := by
  induction l1 with
  | nil => simp
  | cons a l ih =>
    show (a :: (l ++ l2))[l.length + 1 + i]? = l2[i]?
    rw [show l.length + 1 + i = (l.length + i) + 1 by omega]
    rw [List.getElem?_cons_succ]
    exact ih

theorem getElem?_append_len {α : Type} (l1 : List α) (x : α) (l2 : List α) :
    (l1 ++ x :: l2)[l1.length]? = some x := by
  have h := getElem?_append_add l1 (x :: l2) 0
  simpa using h

theorem set_append_add {α : Type} (l1 l2 : List α) (i : Nat) (y : α) :
    (l1 ++ l2).set (l1.length + i) y = l1 ++ l2.set i y := by
  induction l1 with
  | nil => simp
  | cons a l ih =>
    show (a :: (l ++ l2)).set (l.length + 1 + i) y = a :: (l ++ l2.set i y)
    rw [show l.length + 1 + i = (l.length + i) + 1 by omega]
    rw [List.set_cons_succ]
    rw [ih]

theorem set_append_len {α : Type} (l1 : List α) (x y : α) (l2 : List α) :
    (l1 ++ x :: l2).set l1.length y = l1 ++ y :: l2 := by
  have h := set_append_add l1 (x :: l2) 0 y
  simpa using h

theorem forall2_snoc {α β : Type} {R : α → β → Prop} {l1 : List α} {l2 : List β}
    (h : List.Forall₂ R l1 l2) {a : α} {b : β} (hab : R a b) :
    List.Forall₂ R (l1 ++ [a]) (l2 ++ [b]) := by
  induction h with
  | nil => exact List.Forall₂.cons hab List.Forall₂.nil
  | cons hR hF ih => exact List.Forall₂.cons hR ih

/-! Facts that follow from the producer phase invariant. -/

theorem good_buffers_length {N : Nat} {L : LocalLogger} {gs : List (List LogEntry)}
    {cur : List LogEntry} (h : Good N L gs cur) : L.buffers.length = N := by
  rcases h with ⟨bufs, cbuf, hbe, hf2, hic, hlt, hwi, hri, hnp, hng, hsrv⟩
  rw [hbe]
  simp only [List.length_append, List.length_cons, List.length_replicate]
  rw [hf2.length_eq]
  omega

theorem good_peek {N : Nat} {L : LocalLogger} {gs : List (List LogEntry)}
    {cur : List LogEntry} (h : Good N L gs cur) (hN2 : N ≤ 255) :
    L.buffersFull.peek = gs.length := by
  rcases h with ⟨bufs, cbuf, hbe, hf2, hic, hlt, hwi, hri, hnp, hng, hsrv⟩
  unfold Semaphore.peek
  rw [hnp, hng]
  omega

theorem good_not_full {N : Nat} {L : LocalLogger} {gs : List (List LogEntry)}
    {cur : List LogEntry} (h : Good N L gs cur) (hN2 : N ≤ 255) :
    L.full = false := by
  have hlt : gs.length < N := by
    rcases h with ⟨bufs, cbuf, hbe, hf2, hic, hlt, hwi, hri, hnp, hng, hsrv⟩
    exact hlt
  rw [full_false_iff, good_peek h hN2, good_buffers_length h]
  omega

theorem good_init {N : Nat} (hN1 : 1 ≤ N) :
    Good N (registerLogger (initLogger N)) [] [] := by
  refine ⟨[], emptyBuffer, ?_, List.Forall₂.nil, inv_emptyBuffer, hN1, rfl, rfl, rfl, rfl, rfl⟩
  show List.replicate N emptyBuffer
      = [] ++ emptyBuffer :: List.replicate (N - (0 + 1)) emptyBuffer
  cases N with
  | zero => omega
  | succ n => simp [List.replicate_succ]

/-! Specialised equations for the producer operations. -/

theorem flush_advance_state {L : LocalLogger} {buf : EntryBuffer}
    (hfull : L.full = false) (hsrv : L.server = true)
    (hbuf : L.buffers[L.writeIndex]? = some buf) (he : buf.isEmpty = false) :
    L.flush = some ([], { L with writeIndex := (L.writeIndex + 1) % L.buffers.length,
                                 buffersFull := L.buffersFull.put }) := by
  rw [flush_of_nonempty hbuf he, nextIndex_of_not_full hfull hsrv]

theorem log_advance_retry_state {B : Nat} {L : LocalLogger} {e : LogEntry}
    {buf buf2 : EntryBuffer}
    (hfull : L.full = false) (hsrv : L.server = true)
    (hbuf : L.buffers[L.writeIndex]? = some buf) (hp : (pushElem B buf e).1 = false)
    (hbuf2 : L.buffers[(L.writeIndex + 1) % L.buffers.length]? = some buf2)
    (hp2 : (pushElem B buf2 e).1 = true) :
    L.log B e = some ([],
      { L with buffers := L.buffers.set ((L.writeIndex + 1) % L.buffers.length)
                 (pushElem B buf2 e).2,
               writeIndex := (L.writeIndex + 1) % L.buffers.length,
               buffersFull := L.buffersFull.put }) := by
  have hnext := nextIndex_of_not_full hfull hsrv
  have hb2 : (L.nextIndex).2.buffers[(L.nextIndex).2.writeIndex]? = some buf2 := by
    rw [hnext]
    exact hbuf2
  have hres := log_of_push2 hfull hbuf hp hb2 hp2
  rw [hnext] at hres
  exact hres

theorem log_advance_retry_fail {B : Nat} {L : LocalLogger} {e : LogEntry}
    {buf buf2 : EntryBuffer}
    (hfull : L.full = false) (hsrv : L.server = true)
    (hbuf : L.buffers[L.writeIndex]? = some buf) (hp : (pushElem B buf e).1 = false)
    (hbuf2 : L.buffers[(L.writeIndex + 1) % L.buffers.length]? = some buf2)
    (hp2 : (pushElem B buf2 e).1 = false) :
    L.log B e = some ([msgEntryTooLarge],
      { L with writeIndex := (L.writeIndex + 1) % L.buffers.length,
               buffersFull := L.buffersFull.put }) := by
  have hnext := nextIndex_of_not_full hfull hsrv
  have hb2 : (L.nextIndex).2.buffers[(L.nextIndex).2.writeIndex]? = some buf2 := by
    rw [hnext]
    exact hbuf2
  have hres := log_of_fail2 hfull hbuf hp hb2 hp2
  rw [hnext] at hres
  exact hres

/-! Destructuring a run of operations. -/

theorem runOps_nil_some {B : Nat} {L : LocalLogger} {errs : List String}
    {tr : List LogEntry} {L1 : LocalLogger}
    (h : runOps B [] L = some (errs, tr, L1)) :
    errs = [] ∧ tr = [] ∧ L1 = L := by
  simp only [runOps, Option.some.injEq] at h
  injection h with h1 h2
  injection h2 with h3 h4
  exact ⟨h1.symm, h3.symm, h4.symm⟩

theorem runOps_cons_some {B : Nat} {op : Op} {ops : List Op} {L : LocalLogger}
    {errsT : List String} {trT : List LogEntry} {LT : LocalLogger}
    (h : runOps B (op :: ops) L = some (errsT, trT, LT)) :
    ∃ errs tr L1 errs2 tr2, step B op L = some (errs, tr, L1)
      ∧ runOps B ops L1 = some (errs2, tr2, LT)
      ∧ errsT = errs ++ errs2 ∧ trT = tr ++ tr2 := by
  simp only [runOps] at h
  rcases Option.bind_eq_some.1 h with ⟨r, hr, h2⟩
  rcases Option.bind_eq_some.1 h2 with ⟨r2, hr2, h3⟩
  simp only [Option.some.injEq] at h3
  injection h3 with h4 h5
  injection h5 with h6 h7
  refine ⟨r.1, r.2.1, r.2.2, r2.1, r2.2.1, hr, ?_, h4.symm, h6.symm⟩
  rw [hr2, ← h7]

/-! Steps out of the wrapped terminal state always fire the hook. -/

theorem wrapped_log_errs {B : Nat} {e : LogEntry} {L : LocalLogger}
    {errs : List String} {tr : List LogEntry} {L1 : LocalLogger}
    (hW : Wrapped L) (h : step B (Op.logOp e) L = some (errs, tr, L1)) :
    errs ≠ [] := by
  rcases step_log_some h with ⟨hlog, -⟩
  rcases hW with ⟨hpk, hw0, b, hb0, hbne⟩
  have hfull : L.full = true := (full_true_iff L).2 hpk
  rw [log_of_full hfull] at hlog
  simp only [Option.some.injEq] at hlog
  injection hlog with h1 h2
  rw [← h1]
  simp

theorem wrapped_flush_errs {B : Nat} {L : LocalLogger}
    {errs : List String} {tr : List LogEntry} {L1 : LocalLogger}
    (hW : Wrapped L) (h : step B Op.flushOp L = some (errs, tr, L1)) :
    errs ≠ [] := by
  rcases step_flush_some h with ⟨hfl, -⟩
  rcases hW with ⟨hpk, hw0, b, hb0, hbne⟩
  have hfull : L.full = true := (full_true_iff L).2 hpk
  have hbufw : L.buffers[L.writeIndex]? = some b := by rw [hw0]; exact hb0
  have hne : b.isEmpty = false := by
    unfold EntryBuffer.isEmpty
    exact beq_eq_false_iff_ne.2 hbne
  rw [flush_of_nonempty hbufw hne, nextIndex_of_full hfull] at hfl
  simp only [Option.some.injEq] at hfl
  injection hfl with h1 h2
  rw [← h1]
  simp

/-! One producer step out of a good state. -/

theorem log_step_good {B N : Nat} {L : LocalLogger} {gs : List (List LogEntry)}
    {cur : List LogEntry} (hG : Good N L gs cur) (hN2 : N ≤ 255)
    {e : LogEntry} (hsz : 0 < e.size)
    {tr : List LogEntry} {L1 : LocalLogger}
    (hstep : step B (Op.logOp e) L = some ([], tr, L1)) :
    tr = []
    ∧ ((∃ gs1 cur1, Good N L1 gs1 cur1
          ∧ gs1.flatten ++ cur1 = gs.flatten ++ cur ++ [e])
       ∨ Wrapped L1) := by
  rcases step_log_some hstep with ⟨hlog, htr⟩
  have hlen := good_buffers_length hG
  have hpeek := good_peek hG hN2
  have hfull := good_not_full hG hN2
  rcases hG with ⟨bufs, cbuf, hbe, hf2, hic, hlt, hwi, hri, hnp, hng, hsrv⟩
  have hblen : bufs.length = gs.length := hf2.length_eq
  have hbufw : L.buffers[L.writeIndex]? = some cbuf := by
    rw [hbe, hwi, ← hblen]
    exact getElem?_append_len bufs cbuf _
  refine ⟨htr, ?_⟩
  cases hp1 : (pushElem B cbuf e).1 with
  | true =>
    rw [log_of_push1 hfull hbufw hp1] at hlog
    simp only [Option.some.injEq] at hlog
    injection hlog with h1 h2
    subst h2
    refine Or.inl ⟨gs, cur ++ [e], ?_, by simp⟩
    refine ⟨bufs, (pushElem B cbuf e).2, ?_, hf2, inv_push hic hsz hp1,
      hlt, hwi, hri, hnp, hng, hsrv⟩
    show L.buffers.set L.writeIndex (pushElem B cbuf e).2 = _
    rw [hbe, hwi, ← hblen]
    exact set_append_len bufs cbuf _ _
  | false =>
    have hwlen : (L.writeIndex + 1) % L.buffers.length = (gs.length + 1) % N := by
      rw [hwi, hlen]
    cases hcase : decide (gs.length + 1 < N) with
    | true =>
      have hlt1 : gs.length + 1 < N := of_decide_eq_true hcase
      have hmod : (gs.length + 1) % N = gs.length + 1 := Nat.mod_eq_of_lt hlt1
      have hbe2 : L.buffers
          = bufs ++ cbuf :: emptyBuffer
              :: List.replicate (N - (gs.length + 2)) emptyBuffer := by
        rw [hbe, show N - (gs.length + 1) = (N - (gs.length + 2)) + 1 by omega,
          List.replicate_succ]
      have hbuf2 : L.buffers[(L.writeIndex + 1) % L.buffers.length]? = some emptyBuffer := by
        rw [hwlen, hmod, hbe2]
        have h := getElem?_append_add bufs
          (cbuf :: emptyBuffer :: List.replicate (N - (gs.length + 2)) emptyBuffer) 1
        rw [hblen] at h
        simpa using h
      cases hp2 : (pushElem B emptyBuffer e).1 with
      | true =>
        rw [log_advance_retry_state hfull hsrv hbufw hp1 hbuf2 hp2] at hlog
        simp only [Option.some.injEq] at hlog
        injection hlog with h1 h2
        subst h2
        refine Or.inl ⟨gs ++ [cur], [e], ?_, by simp⟩
        refine ⟨bufs ++ [cbuf], (pushElem B emptyBuffer e).2, ?_,
          forall2_snoc hf2 hic, ?_, ?_, ?_, hri, ?_, hng, hsrv⟩
        · show L.buffers.set ((L.writeIndex + 1) % L.buffers.length)
              (pushElem B emptyBuffer e).2
            = (bufs ++ [cbuf]) ++ (pushElem B emptyBuffer e).2
                :: List.replicate (N - ((gs ++ [cur]).length + 1)) emptyBuffer
          rw [hwlen, hmod, hbe2]
          have h := set_append_add bufs
            (cbuf :: emptyBuffer :: List.replicate (N - (gs.length + 2)) emptyBuffer) 1
            (pushElem B emptyBuffer e).2
          rw [hblen] at h
          rw [h]
          have hcount : N - ((gs ++ [cur]).length + 1) = N - (gs.length + 2) := by
            simp
          rw [hcount]
          simp [List.append_assoc]
        · have h := inv_push inv_emptyBuffer hsz hp2
          simpa using h
        · simpa using hlt1
        · show (L.writeIndex + 1) % L.buffers.length = _
          rw [hwlen, hmod]
          simp
        · show (L.buffersFull.numPuts + 1) % 256 = _
          rw [hnp]
          rw [Nat.mod_eq_of_lt (show gs.length + 1 < 256 by omega)]
          simp
      | false =>
        rw [log_advance_retry_fail hfull hsrv hbufw hp1 hbuf2 hp2] at hlog
        simp only [Option.some.injEq] at hlog
        injection hlog with h1 h2
        simp at h1
    | false =>
      have hEq : gs.length + 1 = N := by
        have h := of_decide_eq_false hcase
        omega
      have hmod0 : (gs.length + 1) % N = 0 := by
        rw [hEq]
        exact Nat.mod_self N
      cases bufs with
      | nil =>
        have hbuf0 : L.buffers[(L.writeIndex + 1) % L.buffers.length]? = some cbuf := by
          rw [hwlen, hmod0, hbe]
          simp
        rw [log_advance_retry_fail hfull hsrv hbufw hp1 hbuf0 hp1] at hlog
        simp only [Option.some.injEq] at hlog
        injection hlog with h1 h2
        simp at h1
      | cons b0 brest =>
        have hbuf0 : L.buffers[(L.writeIndex + 1) % L.buffers.length]? = some b0 := by
          rw [hwlen, hmod0, hbe]
          simp
        cases hp2 : (pushElem B b0 e).1 with
        | false =>
          rw [log_advance_retry_fail hfull hsrv hbufw hp1 hbuf0 hp2] at hlog
          simp only [Option.some.injEq] at hlog
          injection hlog with h1 h2
          simp at h1
        | true =>
          rw [log_advance_retry_state hfull hsrv hbufw hp1 hbuf0 hp2] at hlog
          simp only [Option.some.injEq] at hlog
          injection hlog with h1 h2
          subst h2
          refine Or.inr ⟨?_, ?_, (pushElem B b0 e).2, ?_, ?_⟩
          · show ((L.buffersFull.put).numPuts + 256 - (L.buffersFull.put).numGets) % 256
                = (L.buffers.set _ _).length
            simp only [Semaphore.put, List.length_set]
            rw [hnp, hng, hlen]
            rw [Nat.mod_eq_of_lt (show gs.length + 1 < 256 by omega)]
            omega
          · show (L.writeIndex + 1) % L.buffers.length = 0
            rw [hwlen, hmod0]
          · show (L.buffers.set ((L.writeIndex + 1) % L.buffers.length) _)[0]? = _
            rw [hwlen, hmod0, hbe]
            simp
          · rw [pushElem_of_fit ((pushElem_true_iff B b0 e).1 hp2)]
            have h := alignedSize_pos hsz
            simp
            omega

/-! One flush step out of a good state. -/

theorem flush_step_good {B N : Nat} {L : LocalLogger} {gs : List (List LogEntry)}
    {cur : List LogEntry} (hG : Good N L gs cur) (hN2 : N ≤ 255)
    {tr : List LogEntry} {L1 : LocalLogger}
    (hstep : step B Op.flushOp L = some ([], tr, L1)) :
    tr = [] ∧ ∃ gs1, DrainInv L1 gs1 ∧ gs1.flatten = gs.flatten ++ cur := by
  rcases step_flush_some hstep with ⟨hfl, htr⟩
  have hlen := good_buffers_length hG
  have hpeek := good_peek hG hN2
  have hfull := good_not_full hG hN2
  rcases hG with ⟨bufs, cbuf, hbe, hf2, hic, hlt, hwi, hri, hnp, hng, hsrv⟩
  have hblen : bufs.length = gs.length := hf2.length_eq
  have hbufw : L.buffers[L.writeIndex]? = some cbuf := by
    rw [hbe, hwi, ← hblen]
    exact getElem?_append_len bufs cbuf _
  refine ⟨htr, ?_⟩
  cases he : cbuf.isEmpty with
  | true =>
    have hcur : cur = [] := by
      have hpos0 : cbuf.m_pos = 0 := by
        unfold EntryBuffer.isEmpty at he
        exact eq_of_beq he
      exact (inv_pos_zero hic).1 hpos0
    rw [flush_of_empty hbufw he] at hfl
    simp only [Option.some.injEq] at hfl
    injection hfl with h1 h2
    subst h2
    refine ⟨gs, ?_, by simp [hcur]⟩
    refine ⟨[], bufs, cbuf :: List.replicate (N - (gs.length + 1)) emptyBuffer,
      by simpa using hbe, hf2, by simpa using hri, ?_, ?_, ?_, ?_⟩
    · rw [hnp]; omega
    · rw [hng]; omega
    · rw [hpeek]
    · rw [hlen]; exact hN2
  | false =>
    rw [flush_advance_state hfull hsrv hbufw he] at hfl
    simp only [Option.some.injEq] at hfl
    injection hfl with h1 h2
    subst h2
    refine ⟨gs ++ [cur], ?_, by simp⟩
    refine ⟨[], bufs ++ [cbuf], List.replicate (N - (gs.length + 1)) emptyBuffer,
      ?_, forall2_snoc hf2 hic, by simpa using hri, ?_, ?_, ?_, ?_⟩
    · show L.buffers = _
      rw [hbe]
      simp [List.append_assoc]
    · show (L.buffersFull.numPuts + 1) % 256 < 256
      omega
    · show L.buffersFull.numGets < 256
      rw [hng]; omega
    · show ((L.buffersFull.put).numPuts + 256 - (L.buffersFull.put).numGets) % 256 = _
      simp only [Semaphore.put]
      rw [hnp, hng]
      rw [Nat.mod_eq_of_lt (show gs.length + 1 < 256 by omega)]
      simp only [List.length_append, List.length_cons, List.length_nil]
      omega
    · show L.buffers.length ≤ 255
      rw [hlen]; exact hN2

/-! The whole producer phase, by induction over the submitted entries. -/

theorem producer_run {B N : Nat} (hN2 : N ≤ 255) :
    ∀ (es : List LogEntry) (L : LocalLogger) (gs : List (List LogEntry))
      (cur : List LogEntry),
    Good N L gs cur → (∀ x ∈ es, 0 < x.size) →
    ∀ (tr : List LogEntry) (L1 : LocalLogger),
    runOps B (es.map Op.logOp ++ [Op.flushOp]) L = some ([], tr, L1) →
    tr = [] ∧ ∃ gs1, DrainInv L1 gs1 ∧ gs1.flatten = gs.flatten ++ cur ++ es := by
  intro es
  induction es with
  | nil =>
    intro L gs cur hG hpos tr L1 hrun
    simp only [List.map_nil, List.nil_append] at hrun
    rcases runOps_cons_some hrun with ⟨errs, tr1, LA, errs2, tr2, hstep, hrest, herr, htr⟩
    rcases runOps_nil_some hrest with ⟨he2, ht2, hL⟩
    subst hL
    subst he2
    subst ht2
    simp only [List.append_nil] at herr htr
    subst herr
    subst htr
    have hres := flush_step_good hG hN2 hstep
    rcases hres with ⟨htr1, gs1, hD, hflat⟩
    exact ⟨htr1, gs1, hD, by simpa using hflat⟩
  | cons e es' ih =>
    intro L gs cur hG hpos tr L1 hrun
    simp only [List.map_cons, List.cons_append] at hrun
    rcases runOps_cons_some hrun with ⟨errs, tr1, LA, errs2, tr2, hstep, hrest, herr, htr⟩
    have he1 : errs = [] := (List.append_eq_nil.1 herr.symm).1
    have he2 : errs2 = [] := (List.append_eq_nil.1 herr.symm).2
    subst he1
    have hres := log_step_good hG hN2 (hpos e (by simp)) hstep
    rcases hres with ⟨htr1, hnextState⟩
    rcases hnextState with ⟨gs1, cur1, hG1, hflat1⟩ | hW
    · rw [he2] at hrest
      have hih := ih LA gs1 cur1 hG1 (fun x hx => hpos x (by simp [hx])) tr2 L1 hrest
      rcases hih with ⟨htr2, gs2, hD, hflat2⟩
      refine ⟨by rw [htr, htr1, htr2]; rfl, gs2, hD, ?_⟩
      rw [hflat2, hflat1]
      simp
    · exfalso
      cases es' with
      | nil =>
        simp only [List.map_nil, List.nil_append] at hrest
        rcases runOps_cons_some hrest with ⟨errsF, trF, LF, errsF2, trF2, hstepF, hrestF,
          herrF, htrF⟩
        rcases runOps_nil_some hrestF with ⟨heF2, -, -⟩
        subst heF2
        rw [he2] at herrF
        simp only [List.append_nil] at herrF
        exact wrapped_flush_errs hW hstepF herrF.symm
      | cons e2 es'' =>
        simp only [List.map_cons, List.cons_append] at hrest
        rcases runOps_cons_some hrest with ⟨errsF, trF, LF, errsF2, trF2, hstepF, hrestF,
          herrF, htrF⟩
        rw [he2] at herrF
        have hF : errsF = [] := (List.append_eq_nil.1 herrF.symm).1
        exact wrapped_log_errs hW hstepF hF

/-! The whole consumer phase, by induction over the handed off groups. -/

theorem drain_run {B : Nat} :
    ∀ (gs : List (List LogEntry)) (L : LocalLogger), DrainInv L gs →
    ∃ L1, runOps B (List.replicate gs.length Op.drainOp) L
      = some ([], gs.flatten, L1) := by
  intro gs
  induction gs with
  | nil =>
    intro L hD
    exact ⟨L, rfl⟩
  | cons g gs' ih =>
    intro L hD
    rcases hD with ⟨done, bufs, rest, hbe, hf2, hri, hp, hg, hpk, hlen255⟩
    cases bufs with
    | nil => cases hf2
    | cons b bufs' =>
      cases hf2 with
      | cons hIg hf2' =>
        have hz : L.buffersFull.peek ≠ 0 := by rw [hpk]; simp
        have hbe' : L.buffers = done ++ b :: (bufs' ++ rest) := by
          rw [hbe, List.append_assoc, List.cons_append]
        have hread : L.buffers[L.readIndex]? = some b := by
          rw [hbe', hri]
          exact getElem?_append_len done b _
        have hlencomp : done.length + 1 + bufs'.length + rest.length = L.buffers.length := by
          rw [hbe']
          simp only [List.length_append, List.length_cons]
          omega
        have htr : (b.dump).1 = g := inv_dump hIg
        have hstepv : step B Op.drainOp L
            = some ([], g,
                { L with buffers := L.buffers.set L.readIndex (b.dump).2,
                         readIndex := (L.readIndex + 1) % 256,
                         buffersFull := (L.buffersFull.get).2 }) := by
          simp only [step]
          rw [dump_of_ready hz hread]
          simp [htr]
        have hD' : DrainInv
            { L with buffers := L.buffers.set L.readIndex (b.dump).2,
                     readIndex := (L.readIndex + 1) % 256,
                     buffersFull := (L.buffersFull.get).2 } gs' := by
          refine ⟨done ++ [(b.dump).2], bufs', rest, ?_, hf2', ?_, ?_, ?_, ?_, ?_⟩
          · show L.buffers.set L.readIndex (b.dump).2 = _
            rw [hbe', hri, set_append_len]
            simp [List.append_assoc]
          · show (L.readIndex + 1) % 256 = _
            rw [hri]
            rw [Nat.mod_eq_of_lt (by omega)]
            simp
          · show (L.buffersFull.get).2.numPuts < 256
            simpa [Semaphore.get] using hp
          · show (L.buffersFull.get).2.numGets < 256
            simp only [Semaphore.get]
            omega
          · show ((L.buffersFull.get).2.numPuts + 256 - (L.buffersFull.get).2.numGets) % 256
                = gs'.length
            simp only [Semaphore.get]
            simp only [Semaphore.peek, List.length_cons] at hpk
            omega
          · show (L.buffers.set L.readIndex (b.dump).2).length ≤ 255
            simpa [List.length_set] using hlen255
        obtain ⟨Lf, hrun⟩ := ih _ hD'
        refine ⟨Lf, ?_⟩
        show runOps B (List.replicate (gs'.length + 1) Op.drainOp) L = _
        rw [List.replicate_succ]
        simp only [runOps]
        rw [hstepv]
        simp only [Option.some_bind]
        rw [hrun]
        simp only [Option.some_bind]
        simp

/-- Claim C4: end to end order preservation for one producer.  For every
sequence of positive size records submitted through log from a fresh
registered logger with 1 ≤ N ≤ 255 arenas, followed by one flush and by
consumer drains of all full arenas, if no error hook fired then the print
trace is exactly the submitted sequence: records are drained in insertion
order inside each arena and arenas in hand off order. -/
theorem C4_order_preserved (B N : Nat) (es tr : List LogEntry)
    (hN1 : 1 ≤ N) (hN2 : N ≤ 255) (hpos : ∀ x ∈ es, 0 < x.size)
    (h : fullScenario B N es = some tr) : tr = es := by
  unfold fullScenario at h
  split at h
  · simp at h
  · rename_i errs trP LP heq
    split at h
    · rename_i herrs
      subst herrs
      have hres := producer_run (B := B) hN2 es (registerLogger (initLogger N)) [] []
        (good_init hN1) hpos trP LP heq
      rcases hres with ⟨htrP, gs1, hD, hflat⟩
      have hpkv : LP.buffersFull.peek = gs1.length := by
        rcases hD with ⟨d, bf, rst, h1, h2, h3, h4, h5, hpk, h6⟩
        exact hpk
      obtain ⟨Lf, hdr⟩ := drain_run (B := B) gs1 LP hD
      rw [hpkv] at h
      split at h
      · simp at h
      · rename_i errsD trD LD heq2
        rw [hdr] at heq2
        simp only [Option.some.injEq] at heq2
        injection heq2 with hh1 hh2
        injection hh2 with hh3 hh4
        simp only [Option.some.injEq] at h
        rw [← h, ← hh3, hflat]
        simp
    · simp at h

/-- Witness for C4 on three records against two 64 byte arenas: the third
record rolls over into the second arena and the drain trace is the
submission order. -/
theorem C4_order_preserved_witness :
    fullScenario 64 2 entriesOrder = some entriesOrder
    ∧ entriesOrder = entriesOrder :=
  ⟨by decide, C4_order_preserved 64 2 entriesOrder entriesOrder (by decide) (by decide)
    (by decide) (by decide)⟩

end Quicklog
